import Mathlib

/-!
Verification of the Sticky-Nim AI module (`ai.py`).

A shallow embedding of the solver: configurations are lists of natural
numbers (group sizes), boards are lists of booleans (`true` = stick,
`false` = gap), and the mutable module tables (`_configs`,
`_losing_configs`) are modelled by explicit state passing.  Python's
`random` calls are modelled by extra parameters ranging over the values
the library could return; Python exceptions are modelled by `Option` /
`Except` results.
-/

set_option maxHeartbeats 1000000

namespace StickyNim

/-- Embedding of the residual-computing loop of `_move_exists` (ai.py,
lines 189-192): for each group of `config_to`, remove one matching
occurrence from a copy of `config_from` when present. -/
def remove_groups (config_from config_to : List Nat) : List Nat :=
  config_to.foldl (fun acc g => if g ∈ acc then acc.erase g else acc) config_from

/-- Embedding of `_move_exists` (ai.py, lines 169-193).  The take cap is
an integer because `_describe_move_between` passes a possibly negative
difference of sums. -/
def move_exists (config_from config_to : List Nat) (max_take : Int) : Bool :=
  if 1 < ((config_from.length : Int) - (config_to.length : Int)).natAbs then false
  else if (config_from.sum : Int) - (config_to.sum : Int) < 1 ∨
      max_take < (config_from.sum : Int) - (config_to.sum : Int) then false
  else (remove_groups config_from config_to).length == 1

/-- Embedding of the common-group deletion loop of `_describe_move_between`
(ai.py, lines 208-212): iterate over the original `config_to`, erasing
matched groups from copies of both configurations. -/
def remove_common (config_from config_to : List Nat) : List Nat × List Nat :=
  config_to.foldl
    (fun p g => if g ∈ p.1 then (p.1.erase g, p.2.erase g) else p)
    (config_from, config_to)

/-- Embedding of `_describe_move_between` (ai.py, lines 196-226).  The
boolean `pick` stands for the `random.choice([0, 1])` used to pick one of
the two symmetric offsets.  The returned take is the natural-number
difference of sums, which agrees with Python's integer difference
because the guard forces it to be at least 1. -/
def describe_move_between (config_from config_to : List Nat) (pick : Bool) :
    Option (Nat × Nat × Nat) :=
  if move_exists config_from config_to ((config_from.sum : Int) - (config_to.sum : Int)) then
    let p := remove_common config_from config_to
    let size_of_group := p.1.headD 0
    let offset : Nat :=
      match p.2 with
      | [] => 0
      | [_] => 0
      | a :: b :: _ => if pick then a else b
    some (config_from.sum - config_to.sum, size_of_group, offset)
  else none

/-- Characterisation of `_move_exists` as a conjunction of its three
checks. -/
theorem move_exists_true_iff (C D : List Nat) (K : Int) :
    move_exists C D K = true ↔
      ((C.length : Int) - (D.length : Int)).natAbs ≤ 1 ∧
      1 ≤ (C.sum : Int) - (D.sum : Int) ∧
      (C.sum : Int) - (D.sum : Int) ≤ K ∧
      (remove_groups C D).length = 1 := by
  unfold move_exists
  by_cases hlen : 1 < ((C.length : Int) - (D.length : Int)).natAbs
  · rw [if_pos hlen]
    constructor
    · intro h
      cases h
    · intro h
      omega
  · rw [if_neg hlen]
    by_cases htake : (C.sum : Int) - (D.sum : Int) < 1 ∨ K < (C.sum : Int) - (D.sum : Int)
    · rw [if_pos htake]
      constructor
      · intro h
        cases h
      · intro h
        omega
    · rw [if_neg htake]
      push_neg at htake
      rw [beq_iff_eq]
      constructor
      · intro h
        exact ⟨by omega, by omega, htake.2, h⟩
      · intro h
        exact h.2.2.2

theorem move_exists_sum_lt (C D : List Nat) (K : Int)
    (h : move_exists C D K = true) : D.sum < C.sum := by
  have := (move_exists_true_iff C D K).mp h
  omega

theorem move_exists_same_sum (C D : List Nat) (K : Int)
    (h : D.sum = C.sum) : move_exists C D K = false := by
  by_cases hm : move_exists C D K = true
  · have := (move_exists_true_iff C D K).mp hm
    omega
  · exact Bool.not_eq_true _ |>.mp hm

/-- Claim C3: whenever `_move_exists(C, D, K)` returns `True`, the move it
certifies removes between 1 and `K` sticks (so `sum C > sum D`), changes
the number of groups by at most one, and after removing from `C` one copy
of each group value occurring in `D` exactly one group remains. -/
theorem move_exists_sound (C D : List Nat) (K : Int)
    (h : move_exists C D K = true) :
    D.sum < C.sum ∧
    1 ≤ (C.sum : Int) - (D.sum : Int) ∧
    (C.sum : Int) - (D.sum : Int) ≤ K ∧
    ((C.length : Int) - (D.length : Int)).natAbs ≤ 1 ∧
    (remove_groups C D).length = 1 := by
  unfold move_exists at h
  by_cases hlen : 1 < ((C.length : Int) - (D.length : Int)).natAbs
  · rw [if_pos hlen] at h
    cases h
  · rw [if_neg hlen] at h
    by_cases htake : (C.sum : Int) - (D.sum : Int) < 1 ∨ K < (C.sum : Int) - (D.sum : Int)
    · rw [if_pos htake] at h
      cases h
    · rw [if_neg htake] at h
      push_neg at htake
      obtain ⟨h1, h2⟩ := htake
      have hres : (remove_groups C D).length = 1 := by
        rwa [beq_iff_eq] at h
      exact ⟨by omega, by omega, h2, by omega, hres⟩

/-- Witness for C3 at `C = [3]`, `D = [1]`, `K = 3`. -/
theorem move_exists_sound_witness :
    move_exists [3] [1] 3 = true ∧
    ([1] : List Nat).sum < ([3] : List Nat).sum ∧
    1 ≤ (([3] : List Nat).sum : Int) - (([1] : List Nat).sum : Int) ∧
    (([3] : List Nat).sum : Int) - (([1] : List Nat).sum : Int) ≤ 3 ∧
    ((([3] : List Nat).length : Int) - (([1] : List Nat).length : Int)).natAbs ≤ 1 ∧
    (remove_groups [3] [1]).length = 1 := by
  have h : move_exists [3] [1] 3 = true := by decide
  have hs := move_exists_sound [3] [1] 3 h
  exact ⟨h, hs.1, hs.2.1, hs.2.2.1, hs.2.2.2.1, hs.2.2.2.2⟩

/-- Claim C9: `_describe_move_between(F, T)` returns a non-`None` triple
exactly when `_move_exists(F, T, sum F - sum T)` holds: the function uses
the move's own stick count as the take cap, independently of any
game-level `max_take`, so no upper bound beyond `take >= 1` is enforced. -/
theorem describe_move_between_isSome (F T : List Nat) (pick : Bool) :
    (describe_move_between F T pick).isSome =
      move_exists F T ((F.sum : Int) - (T.sum : Int)) := by
  unfold describe_move_between
  by_cases h : move_exists F T ((F.sum : Int) - (T.sum : Int)) = true
  · rw [if_pos h, h]
    rfl
  · rw [Bool.not_eq_true] at h
    rw [if_neg (by rw [h]; exact Bool.false_ne_true), h]
    rfl

/-- The global `_configs` table: `_configs[n]` is the list of per-group-count
entries for `n` sticks, and `_configs[n][k]` the list of n-stick k-group
configurations (ai.py, lines 153-157). -/
abbrev ConfigTable := List (List (List (List Nat)))

/-- Initial value of `_configs`: only the (empty) list of 0-stick configs
(ai.py, lines 156-157). -/
def init_configs : ConfigTable := [[]]

/-- Reading `_configs[n]`. -/
def table_row (t : ConfigTable) (n : Nat) : List (List (List Nat)) := t.getD n []

/-- Reading `_configs[n][k]`. -/
def table_entry (t : ConfigTable) (n k : Nat) : List (List Nat) :=
  (t.getD n []).getD k []

/-- Mutation `_configs[n].append(x)`. -/
def row_append (t : ConfigTable) (n : Nat) (x : List (List Nat)) : ConfigTable :=
  t.set n (table_row t n ++ [x])

/-- Mutation `_configs[n][k].extend(xs)`. -/
def entry_extend (t : ConfigTable) (n k : Nat) (xs : List (List Nat)) : ConfigTable :=
  t.set n ((table_row t n).set k (table_entry t n k ++ xs))

/-- One iteration of the `for k in range(2, n + 1)` loop of `_build_configs`
(ai.py, lines 242-265): append an empty entry, extend it with Set A
(configs of `n - 1` sticks and `k - 1` groups plus a 1-stick group), and,
when `k <= n - k`, with Set B (configs of `n - k` sticks and `k` groups
with one stick added to every group). -/
def build_configs_step_k (n : Nat) (t : ConfigTable) (k : Nat) : ConfigTable :=
  let t1 := row_append t n []
  let set_a := (table_entry t1 (n - 1) (k - 1)).map (fun c => c ++ [1])
  let t2 := entry_extend t1 n k set_a
  if n - k < k then t2
  else
    let set_b := (table_entry t2 (n - k) k).map (fun c => c.map (· + 1))
    entry_extend t2 n k set_b

/-- One iteration of the `for n in range(start_from, up_to + 1)` loop of
`_build_configs` (ai.py, lines 235-265): append a fresh row at the end of
the table, push the 0-group and 1-group entries into `_configs[n]`, then
run the k-loop. -/
def build_configs_step (t : ConfigTable) (n : Nat) : ConfigTable :=
  let t1 := t ++ [[]]
  let t2 := row_append t1 n []
  let t3 := row_append t2 n [[n]]
  (List.range' 2 (n - 1)).foldl (build_configs_step_k n) t3

/-- Embedding of `_build_configs(up_to, start_from)` (ai.py, lines 229-265)
as a state transformer on the `_configs` table. -/
def build_configs_from (up_to start_from : Nat) (t : ConfigTable) : ConfigTable :=
  (List.range' start_from (up_to + 1 - start_from)).foldl build_configs_step t

/-- The `_configs` table obtained by a single `_build_configs(up_to)` call
on the freshly initialised module state. -/
def build_configs (up_to : Nat) : ConfigTable :=
  build_configs_from up_to 1 init_configs

theorem foldl_length_fixed {α : Type} (f : List α → Nat → List α)
    (hf : ∀ s k, (f s k).length = s.length) :
    ∀ (ks : List Nat) (t : List α), (ks.foldl f t).length = t.length := by
  intro ks
  induction ks with
  | nil => intro t; rfl
  | cons k ks ih => intro t; rw [List.foldl_cons, ih, hf]

theorem length_build_configs_step_k (n : Nat) (s : ConfigTable) (k : Nat) :
    (build_configs_step_k n s k).length = s.length := by
  unfold build_configs_step_k
  by_cases h : n - k < k
  · simp [h, entry_extend, row_append]
  · simp [h, entry_extend, row_append]

theorem length_build_configs_step (t : ConfigTable) (n : Nat) :
    (build_configs_step t n).length = t.length + 1 := by
  unfold build_configs_step
  rw [foldl_length_fixed _ (length_build_configs_step_k n)]
  simp [row_append]

theorem length_build_configs_from (up_to start_from : Nat) (t : ConfigTable) :
    (build_configs_from up_to start_from t).length =
      t.length + (up_to + 1 - start_from) := by
  unfold build_configs_from
  generalize hc : up_to + 1 - start_from = c
  clear hc
  induction c generalizing start_from t with
  | zero => rfl
  | succ c ih =>
    rw [List.range'_concat, List.foldl_append]
    simp only [List.foldl_cons, List.foldl_nil]
    rw [length_build_configs_step, ih]
    omega

theorem length_build_configs (up_to : Nat) :
    (build_configs up_to).length = up_to + 1 := by
  unfold build_configs
  rw [length_build_configs_from]
  simp [init_configs]
  omega

/-- Counterexample to claim C6 at `up_to = 2`: running `_build_configs(2)`
twice (both times with the default `start_from = 1`) does not leave the
table equal to a single run; the second run re-extends `_configs[2][2]`
to `[[1, 1], [1, 1]]` and appends junk rows. -/
theorem build_configs_twice_ne :
    build_configs_from 2 1 (build_configs 2) ≠ build_configs 2 := by decide

/-- Claim C6 (amended): re-running the configuration-table build for the
same `up_to` is the identity when the second call passes
`start_from = len(_configs)`, exactly as `set_rules` does (ai.py, line
430); with the default `start_from = 1` the second call corrupts the
table instead. -/
theorem build_configs_idempotent_extension (N : Nat) :
    build_configs_from N (build_configs N).length (build_configs N) =
      build_configs N ∧ (build_configs N).length = N + 1 := by
  refine ⟨?_, length_build_configs N⟩
  unfold build_configs_from
  rw [length_build_configs]
  have h : N + 1 - (N + 1) = 0 := by omega
  rw [h]
  rfl

/-- Recursive reading of the `_build_configs` recurrence: the value that
the imperative build stores in `_configs[n][k]`.  Base cases are the
0-group and 1-group entries; for `k >= 2` the entry is Set A (append a
1-stick group to every `(n-1)`-stick `(k-1)`-group config) followed by
Set B (add one stick to every group of an `(n-k)`-stick `k`-group
config, only when `k <= n - k`). -/
def configs_rec (n k : Nat) : List (List Nat) :=
  if hk0 : k = 0 then []
  else if hk1 : k = 1 then [[n]]
  else if hnk : n < k then []
  else
    (configs_rec (n - 1) (k - 1)).map (fun c => c ++ [1]) ++
      (if n - k < k then []
       else (configs_rec (n - k) k).map (fun c => c.map (· + 1)))
termination_by n
decreasing_by
· omega
· omega

theorem getD_append_left {α : Type} (l₁ l₂ : List α) (n : Nat) (d : α)
    (h : n < l₁.length) : (l₁ ++ l₂).getD n d = l₁.getD n d := by
  simp [List.getD_eq_getElem?_getD, List.getElem?_append_left h]

theorem getD_concat_length {α : Type} (l : List α) (x d : α) :
    (l ++ [x]).getD l.length d = x := by
  simp [List.getD_eq_getElem?_getD]

theorem getD_set_self {α : Type} (l : List α) (n : Nat) (x d : α)
    (h : n < l.length) : (l.set n x).getD n d = x := by
  simp [List.getD_eq_getElem?_getD, List.getElem?_set_self', List.getElem?_eq_getElem h]

theorem getD_set_ne {α : Type} (l : List α) (m n : Nat) (x d : α)
    (h : n ≠ m) : (l.set n x).getD m d = l.getD m d := by
  simp [List.getD_eq_getElem?_getD, List.getElem?_set_ne h]

theorem set_concat_length {α : Type} (l : List α) (a x : α) :
    (l ++ [a]).set l.length x = l ++ [x] := by
  induction l with
  | nil => rfl
  | cons b l ih => simp [List.set, ih]

/-- The finished row `_configs[n]` once `_build_configs` has processed
stick count `n`. -/
def full_row (n : Nat) : List (List (List Nat)) :=
  (List.range (n + 1)).map (configs_rec n)

theorem build_configs_step_k_eq (n k : Nat) (t : ConfigTable)
    (row : List (List (List Nat)))
    (hn : n = t.length) (hk2 : 2 ≤ k) (hkn : k ≤ n)
    (hbelow : ∀ m j, m < n → j ≤ m → table_entry t m j = configs_rec m j)
    (hrowlen : row.length = k) :
    build_configs_step_k n (t ++ [row]) k = t ++ [row ++ [configs_rec n k]] := by
  have hrown : table_row (t ++ [row]) n = row := by
    unfold table_row
    rw [hn, getD_concat_length]
  have ht1 : row_append (t ++ [row]) n [] = t ++ [row ++ [[]]] := by
    unfold row_append
    rw [hrown, hn, set_concat_length]
  have hentry_left : ∀ m j, m < n → (∀ (r : List (List (List Nat))),
      table_entry (t ++ [r]) m j = table_entry t m j) := by
    intro m j hm r
    unfold table_entry
    rw [getD_append_left _ _ _ _ (by omega)]
  have hseta : table_entry (t ++ [row ++ [[]]]) (n - 1) (k - 1) =
      configs_rec (n - 1) (k - 1) := by
    rw [hentry_left _ _ (by omega), hbelow (n - 1) (k - 1) (by omega) (by omega)]
  have hentryk : table_entry (t ++ [row ++ [[]]]) n k = [] := by
    unfold table_entry
    rw [hn, getD_concat_length, ← hrowlen, getD_concat_length]
  have ht2 : entry_extend (t ++ [row ++ [[]]]) n k
        ((configs_rec (n - 1) (k - 1)).map (fun c => c ++ [1])) =
      t ++ [row ++ [(configs_rec (n - 1) (k - 1)).map (fun c => c ++ [1])]] := by
    unfold entry_extend
    rw [hentryk]
    have hrow2 : table_row (t ++ [row ++ [[]]]) n = row ++ [[]] := by
      unfold table_row
      rw [hn, getD_concat_length]
    rw [hrow2, List.nil_append, ← hrowlen, set_concat_length, hn, set_concat_length]
  simp only [build_configs_step_k]
  rw [ht1, hseta, ht2]
  by_cases hcase : n - k < k
  · rw [if_pos hcase]
    have : configs_rec n k = (configs_rec (n - 1) (k - 1)).map (fun c => c ++ [1]) := by
      rw [configs_rec]
      rw [dif_neg (by omega), dif_neg (by omega), dif_neg (by omega), if_pos hcase,
        List.append_nil]
    rw [this]
  · rw [if_neg hcase]
    have hsetb : table_entry
        (t ++ [row ++ [(configs_rec (n - 1) (k - 1)).map (fun c => c ++ [1])]])
        (n - k) k = configs_rec (n - k) k := by
      rw [hentry_left _ _ (by omega), hbelow (n - k) k (by omega) (by omega)]
    rw [hsetb]
    unfold entry_extend
    have hrow3 : table_row
        (t ++ [row ++ [(configs_rec (n - 1) (k - 1)).map (fun c => c ++ [1])]]) n =
        row ++ [(configs_rec (n - 1) (k - 1)).map (fun c => c ++ [1])] := by
      unfold table_row
      rw [hn, getD_concat_length]
    have hentryk2 : table_entry
        (t ++ [row ++ [(configs_rec (n - 1) (k - 1)).map (fun c => c ++ [1])]]) n k =
        (configs_rec (n - 1) (k - 1)).map (fun c => c ++ [1]) := by
      unfold table_entry
      rw [hn, getD_concat_length, ← hrowlen, getD_concat_length]
    rw [hrow3, hentryk2, ← hrowlen, set_concat_length, hn, set_concat_length]
    have hrec : configs_rec n k = (configs_rec (n - 1) (k - 1)).map (fun c => c ++ [1]) ++
        (configs_rec (n - k) k).map (fun c => c.map (· + 1)) := by
      rw [configs_rec]
      rw [dif_neg (by omega), dif_neg (by omega), dif_neg (by omega), if_neg hcase]
    rw [hn, ← hrowlen] at hrec
    rw [hrec]

theorem build_configs_k_loop (n : Nat) (t : ConfigTable)
    (hn : n = t.length)
    (hbelow : ∀ m j, m < n → j ≤ m → table_entry t m j = configs_rec m j) :
    ∀ (c j : Nat), 1 ≤ j → j + c = n →
      (List.range' (j + 1) c).foldl (build_configs_step_k n)
          (t ++ [(List.range (j + 1)).map (configs_rec n)]) =
        t ++ [full_row n] := by
  intro c
  induction c with
  | zero =>
    intro j hj hjc
    have : j = n := by omega
    subst this
    rfl
  | succ c ih =>
    intro j hj hjc
    rw [List.range'_succ, List.foldl_cons]
    have hstep := build_configs_step_k_eq n (j + 1) t
      ((List.range (j + 1)).map (configs_rec n)) hn (by omega) (by omega) hbelow
      (by simp)
    rw [hstep]
    have hre : (List.range (j + 1)).map (configs_rec n) ++ [configs_rec n (j + 1)] =
        (List.range (j + 1 + 1)).map (configs_rec n) := by
      have hr : List.range (j + 1 + 1) = List.range (j + 1) ++ [j + 1] :=
        List.range_succ (j + 1)
      rw [hr, List.map_append]
      rfl
    rw [hre]
    exact ih (j + 1) (by omega) (by omega)

theorem build_configs_step_eq (t : ConfigTable) (n : Nat)
    (hn : n = t.length) (hn1 : 1 ≤ n)
    (hbelow : ∀ m j, m < n → j ≤ m → table_entry t m j = configs_rec m j) :
    build_configs_step t n = t ++ [full_row n] := by
  simp only [build_configs_step]
  have h1 : row_append (t ++ [[]]) n [] = t ++ [[[]]] := by
    unfold row_append table_row
    rw [hn, getD_concat_length, set_concat_length]
    rfl
  have h2 : row_append (t ++ [[[]]]) n [[n]] = t ++ [[[], [[n]]]] := by
    unfold row_append table_row
    rw [hn, getD_concat_length, set_concat_length]
    rfl
  rw [h1, h2]
  have hbase : ([[], [[n]]] : List (List (List Nat))) =
      (List.range (1 + 1)).map (configs_rec n) := by
    have e0 : configs_rec n 0 = [] := by rw [configs_rec]; simp
    have e1 : configs_rec n 1 = [[n]] := by rw [configs_rec]; simp
    simp [List.range_succ, e0, e1]
  rw [hbase]
  exact build_configs_k_loop n t hn hbelow (n - 1) 1 (by omega) (by omega)

theorem configs_rec_zero_zero : configs_rec 0 0 = [] := by
  rw [configs_rec]
  simp

theorem model_entry (N n k : Nat) (hn : n ≤ N) (hk : k ≤ n) :
    table_entry ([[]] ++ (List.range' 1 N).map full_row) n k = configs_rec n k := by
  match n, hn, hk with
  | 0, _, hk =>
    have hz : k = 0 := by omega
    subst hz
    unfold table_entry
    rw [configs_rec_zero_zero]
    rfl
  | m + 1, hm, hk =>
    unfold table_entry
    have hgd : ([[]] ++ (List.range' 1 N).map full_row).getD (m + 1) [] =
        full_row (m + 1) := by
      show ((([] : List (List (List Nat)))) :: (List.range' 1 N).map full_row).getD
        (m + 1) [] = full_row (m + 1)
      rw [List.getD_cons_succ]
      rw [List.getD_eq_getElem?_getD, List.getElem?_map]
      have hidx : (List.range' 1 N)[m]? = some (m + 1) := by
        have h := List.getElem?_range' 1 1 (m := m) (n := N) (by omega)
        rw [h]
        congr 1
        omega
      rw [hidx]
      rfl
    rw [hgd]
    unfold full_row
    rw [List.getD_eq_getElem?_getD, List.getElem?_map]
    have hidx2 : (List.range (m + 1 + 1))[k]? = some k := List.getElem?_range (by omega)
    rw [hidx2]
    rfl

/-- Explicit form of the table produced by `_build_configs(N)` from the
initial module state: the 0-stick row is empty, and row `n` holds the
entries `configs_rec n k` for `k = 0..n`. -/
theorem build_configs_eq (N : Nat) :
    build_configs N = [[]] ++ (List.range' 1 N).map full_row := by
  induction N with
  | zero => rfl
  | succ N ih =>
    have hstep : build_configs (N + 1) = build_configs_step (build_configs N) (N + 1) := by
      unfold build_configs build_configs_from
      have h1 : N + 1 + 1 - 1 = N + 1 := by omega
      have h2 : N + 1 - 1 = N := by omega
      rw [h1, h2, List.range'_concat, List.foldl_append]
      have h3 : 1 + 1 * N = N + 1 := by omega
      rw [h3]
      rfl
    have hlen : N + 1 = (build_configs N).length := (length_build_configs N).symm
    have hbelow : ∀ m j, m < N + 1 → j ≤ m →
        table_entry (build_configs N) m j = configs_rec m j := by
      intro m j hm hj
      rw [ih]
      exact model_entry N m j (by omega) hj
    rw [hstep, build_configs_step_eq (build_configs N) (N + 1) hlen (by omega) hbelow, ih]
    rw [List.range'_concat]
    have h3 : 1 + 1 * N = N + 1 := by omega
    rw [h3, List.map_append, List.append_assoc]
    rfl

/-- Reading `_configs[n][k]` after `_build_configs(N)`: it is exactly the
recurrence value `configs_rec n k`. -/
theorem table_entry_build_configs (N n k : Nat) (hn : n ≤ N) (hk : k ≤ n) :
    table_entry (build_configs N) n k = configs_rec n k := by
  rw [build_configs_eq]
  exact model_entry N n k hn hk

theorem sorted_ge_getLast_le (c : List Nat) (hc : c ≠ [])
    (hs : List.Sorted (· ≥ ·) c) : ∀ x ∈ c, c.getLast hc ≤ x := by
  induction c with
  | nil => cases hc rfl
  | cons a t ih =>
    intro x hx
    cases t with
    | nil =>
      rw [List.mem_singleton] at hx
      subst hx
      exact Nat.le_refl _
    | cons b t2 =>
      have hgl : (a :: b :: t2).getLast hc = (b :: t2).getLast (by simp) := by
        rw [List.getLast_cons]
      rw [hgl]
      rw [List.sorted_cons] at hs
      rcases List.mem_cons.mp hx with hxa | hxt
      · subst hxa
        exact hs.1 _ (List.getLast_mem _)
      · exact ih (by simp) hs.2 x hxt

theorem mul_length_le_sum (c : List Nat) (m : Nat) (h : ∀ x ∈ c, m ≤ x) :
    m * c.length ≤ c.sum := by
  induction c with
  | nil => simp
  | cons a t ih =>
    simp only [List.length_cons, List.sum_cons, Nat.mul_succ]
    have ha := h a (by simp)
    have ht := ih (fun x hx => h x (by simp [hx]))
    omega

theorem sum_map_pred (c : List Nat) :
    (c.map (fun x => x - 1)).sum + c.length ≤ c.sum + c.length ∧
    ((∀ x ∈ c, 1 ≤ x) → (c.map (fun x => x - 1)).sum + c.length = c.sum) := by
  induction c with
  | nil => simp
  | cons a t ih =>
    constructor
    · simp only [List.map_cons, List.sum_cons, List.length_cons]
      omega
    · intro h
      have ha := h a (by simp)
      have ht := ih.2 (fun x hx => h x (by simp [hx]))
      simp only [List.map_cons, List.sum_cons, List.length_cons]
      omega

theorem sum_map_succ (c : List Nat) :
    (c.map (fun x => x + 1)).sum = c.sum + c.length := by
  induction c with
  | nil => simp
  | cons a t ih =>
    simp only [List.map_cons, List.sum_cons, List.length_cons, ih]
    omega

theorem configs_rec_one (n : Nat) : configs_rec n 1 = [[n]] := by
  rw [configs_rec]
  simp

/-- Characterisation of the `_build_configs` recurrence: for `1 <= k <= n`
the entry holds exactly the descending lists of `k` positive integers
summing to `n`. -/
theorem configs_rec_mem : ∀ (n k : Nat), 1 ≤ k → k ≤ n → ∀ c,
    (c ∈ configs_rec n k ↔
      List.Sorted (· ≥ ·) c ∧ (∀ x ∈ c, 1 ≤ x) ∧ c.length = k ∧ c.sum = n) := by
  intro n
  induction n using Nat.strong_induction_on with
  | _ n ih =>
    intro k hk1 hkn c
    by_cases hk : k = 1
    · subst hk
      rw [configs_rec_one]
      constructor
      · intro hc
        rw [List.mem_singleton] at hc
        subst hc
        refine ⟨List.sorted_singleton n, ?_, rfl, by simp⟩
        intro x hx
        rw [List.mem_singleton] at hx
        omega
      · rintro ⟨hs, hp, hl, hsum⟩
        match c, hl with
        | [x], _ =>
          simp only [List.sum_cons, List.sum_nil] at hsum
          simp [hsum]
          omega
    · have hk2 : 2 ≤ k := by omega
      rw [configs_rec, dif_neg (by omega), dif_neg hk, dif_neg (by omega)]
      have ihA := ih (n - 1) (by omega) (k - 1) (by omega) (by omega)
      constructor
      · intro hc
        rw [List.mem_append] at hc
        rcases hc with hA | hB
        · rw [List.mem_map] at hA
          obtain ⟨c', hc', rfl⟩ := hA
          obtain ⟨hs, hp, hl, hsum⟩ := (ihA c').mp hc'
          refine ⟨?_, ?_, ?_, ?_⟩
          · rw [List.Sorted, List.pairwise_append]
            refine ⟨hs, by simp, ?_⟩
            intro a ha b hb
            rw [List.mem_singleton] at hb
            subst hb
            exact hp a ha
          · intro x hx
            rw [List.mem_append] at hx
            rcases hx with hx | hx
            · exact hp x hx
            · rw [List.mem_singleton] at hx
              omega
          · simp [hl]
            omega
          · simp [hsum]
            omega
        · by_cases hg : n - k < k
          · rw [if_pos hg] at hB
            cases hB
          · rw [if_neg hg] at hB
            rw [List.mem_map] at hB
            obtain ⟨c'', hc'', rfl⟩ := hB
            have ihB := ih (n - k) (by omega) k hk1 (by omega)
            obtain ⟨hs, hp, hl, hsum⟩ := (ihB c'').mp hc''
            refine ⟨?_, ?_, ?_, ?_⟩
            · rw [List.Sorted, List.pairwise_map]
              rw [List.Sorted] at hs
              exact hs.imp (fun h => by omega)
            · intro x hx
              rw [List.mem_map] at hx
              obtain ⟨y, _, rfl⟩ := hx
              omega
            · simp [hl]
            · rw [sum_map_succ, hsum, hl]
              omega
      · rintro ⟨hs, hp, hl, hsum⟩
        have hcne : c ≠ [] := by
          intro hnil
          subst hnil
          simp at hl
          omega
        rw [List.mem_append]
        by_cases hlast : c.getLast hcne = 1
        · left
          rw [List.mem_map]
          refine ⟨c.dropLast, ?_, ?_⟩
          · have hsplit : c.dropLast ++ [1] = c := by
              rw [← hlast]
              exact List.dropLast_append_getLast hcne
            rw [ihA]
            have hsdl : List.Sorted (· ≥ ·) c.dropLast := by
              rw [← hsplit, List.Sorted, List.pairwise_append] at hs
              exact hs.1
            have hpdl : ∀ x ∈ c.dropLast, 1 ≤ x := by
              intro x hx
              exact hp x (List.dropLast_subset c hx)
            have hldl : c.dropLast.length = k - 1 := by
              have := c.length_dropLast
              omega
            have hsumdl : c.dropLast.sum = n - 1 := by
              have : c.dropLast.sum + ([1] : List Nat).sum = c.sum := by
                rw [← List.sum_append, hsplit]
              simp at this
              omega
            exact ⟨hsdl, hpdl, hldl, hsumdl⟩
          · rw [← hlast]
            exact List.dropLast_append_getLast hcne
        · right
          have hge2 : ∀ x ∈ c, 2 ≤ x := by
            intro x hx
            have h1 := hp _ (List.getLast_mem hcne)
            have h2 := sorted_ge_getLast_le c hcne hs x hx
            omega
          have hguard : ¬ n - k < k := by
            have := mul_length_le_sum c 2 hge2
            rw [hl, hsum] at this
            omega
          rw [if_neg hguard, List.mem_map]
          refine ⟨c.map (fun x => x - 1), ?_, ?_⟩
          · rw [ih (n - k) (by omega) k hk1 (by omega)]
            refine ⟨?_, ?_, ?_, ?_⟩
            · rw [List.Sorted, List.pairwise_map]
              rw [List.Sorted] at hs
              exact hs.imp (fun h => by omega)
            · intro x hx
              rw [List.mem_map] at hx
              obtain ⟨y, hy, rfl⟩ := hx
              have := hge2 y hy
              omega
            · simp [hl]
            · have hsp := (sum_map_pred c).2 hp
              rw [hl, hsum] at hsp
              omega
          · rw [List.map_map]
            have hcongr : List.map ((fun x => x + 1) ∘ fun x => x - 1) c =
                List.map id c := by
              refine List.map_congr_left ?_
              intro x hx
              have := hp x hx
              simp
              omega
            rw [hcongr, List.map_id]

theorem configs_rec_nodup : ∀ (n k : Nat), 1 ≤ k → k ≤ n → (configs_rec n k).Nodup := by
  intro n
  induction n using Nat.strong_induction_on with
  | _ n ih =>
    intro k hk1 hkn
    by_cases hk : k = 1
    · subst hk
      rw [configs_rec_one]
      simp
    · have hk2 : 2 ≤ k := by omega
      rw [configs_rec, dif_neg (by omega), dif_neg hk, dif_neg (by omega)]
      have hA : ((configs_rec (n - 1) (k - 1)).map (fun c => c ++ [1])).Nodup := by
        refine List.Nodup.map ?_ (ih (n - 1) (by omega) (k - 1) (by omega) (by omega))
        intro a b hab
        simpa using hab
      by_cases hg : n - k < k
      · rw [if_pos hg, List.append_nil]
        exact hA
      · rw [if_neg hg]
        have hB : ((configs_rec (n - k) k).map (fun c => c.map (· + 1))).Nodup := by
          refine List.Nodup.map ?_ (ih (n - k) (by omega) k hk1 (by omega))
          intro a b hab
          exact List.map_injective_iff.mpr (fun x y hxy => by omega) hab
        refine hA.append hB ?_
        intro a haA haB
        rw [List.mem_map] at haA haB
        obtain ⟨c', hc', rfl⟩ := haA
        obtain ⟨c'', hc'', heq⟩ := haB
        have h1 : (1 : Nat) ∈ c' ++ [1] := by simp
        rw [← heq, List.mem_map] at h1
        obtain ⟨y, hy, hy1⟩ := h1
        have hpos := ((configs_rec_mem (n - k) k hk1 (by omega) c'').mp hc'').2.1 y hy
        simp at hy1
        omega

/-- The concatenation of all the n-stick entries of the table, over group
counts `k = 1..n`. -/
def all_configs (n : Nat) : List (List Nat) :=
  (List.range' 1 n).flatMap (configs_rec n)

theorem mem_range'_one (k n : Nat) : k ∈ List.range' 1 n ↔ 1 ≤ k ∧ k < 1 + n :=
  List.mem_range'_1

theorem all_configs_mem (n : Nat) (hn : 1 ≤ n) (c : List Nat) :
    c ∈ all_configs n ↔
      List.Sorted (· ≥ ·) c ∧ (∀ x ∈ c, 1 ≤ x) ∧ c.sum = n := by
  unfold all_configs
  rw [List.mem_flatMap]
  constructor
  · rintro ⟨k, hk, hc⟩
    rw [mem_range'_one] at hk
    obtain ⟨hs, hp, _, hsum⟩ := (configs_rec_mem n k hk.1 (by omega) c).mp hc
    exact ⟨hs, hp, hsum⟩
  · rintro ⟨hs, hp, hsum⟩
    have hcne : c ≠ [] := by
      intro hnil
      subst hnil
      simp at hsum
      omega
    have hlen1 : 1 ≤ c.length := by
      cases c with
      | nil => cases hcne rfl
      | cons a t => simp
    have hlenn : c.length ≤ n := by
      have := mul_length_le_sum c 1 hp
      omega
    refine ⟨c.length, ?_, ?_⟩
    · rw [mem_range'_one]
      omega
    · exact (configs_rec_mem n c.length hlen1 hlenn c).mpr ⟨hs, hp, rfl, hsum⟩

theorem all_configs_nodup (n : Nat) (hn : 1 ≤ n) : (all_configs n).Nodup := by
  unfold all_configs
  rw [List.nodup_flatMap]
  constructor
  · intro k hk
    rw [mem_range'_one] at hk
    exact configs_rec_nodup n k hk.1 (by omega)
  · have hnd : (List.range' 1 n).Pairwise (· ≠ ·) := (List.nodup_range' ..)
    refine hnd.imp_of_mem ?_
    intro a b ha hb hab
    rw [mem_range'_one] at ha hb
    intro c hca hcb
    obtain ⟨_, _, hla, _⟩ := (configs_rec_mem n a ha.1 (by omega) c).mp hca
    obtain ⟨_, _, hlb, _⟩ := (configs_rec_mem n b hb.1 (by omega) c).mp hcb
    exact hab (hla ▸ hlb ▸ rfl)

/-- The number of configurations of total `n` stored in the table equals
the number of integer partitions of `n`, in the sense of Mathlib's
`Nat.Partition`. -/
theorem all_configs_length (n : Nat) (hn : 1 ≤ n) :
    (all_configs n).length = Fintype.card (Nat.Partition n) := by
  classical
  rw [← List.toFinset_card_of_nodup (all_configs_nodup n hn), ← Finset.card_univ]
  have hmem : ∀ c, c ∈ (all_configs n).toFinset →
      List.Sorted (· ≥ ·) c ∧ (∀ x ∈ c, 1 ≤ x) ∧ c.sum = n := by
    intro c hc
    rw [List.mem_toFinset] at hc
    exact (all_configs_mem n hn c).mp hc
  refine Finset.card_bij
    (fun c hc => Nat.Partition.mk (↑c)
      (fun hi => by
        have hp := (hmem c hc).2.1
        rw [Multiset.mem_coe] at hi
        exact hp _ hi)
      (by rw [Multiset.sum_coe]; exact (hmem c hc).2.2))
    (fun c hc => Finset.mem_univ _) ?_ ?_
  · intro a ha b hb heq
    have hparts : (↑a : Multiset Nat) = (↑b : Multiset Nat) :=
      congrArg Nat.Partition.parts heq
    rw [Multiset.coe_eq_coe] at hparts
    exact List.eq_of_perm_of_sorted hparts (hmem a ha).1 (hmem b hb).1
  · intro p _
    refine ⟨Multiset.sort (· ≥ ·) p.parts, ?_, ?_⟩
    · rw [List.mem_toFinset, all_configs_mem n hn]
      refine ⟨Multiset.sort_sorted _ _, ?_, ?_⟩
      · intro x hx
        rw [Multiset.mem_sort] at hx
        exact p.parts_pos hx
      · rw [← Multiset.sum_coe, Multiset.sort_eq]
        exact p.parts_sum
    · ext g
      simp [Multiset.sort_eq]

/-- Claim C2: after `_build_configs(N)` starting from the empty table,
`_configs[n][k]` (for `1 <= n <= N`, `1 <= k <= n`) holds exactly the
partitions of `n` into `k` positive parts, each as a descending list and
each exactly once; consequently the total number of configurations of
size `n` summed over `k` equals the number of integer partitions of `n`. -/
theorem build_configs_partitions (N n k : Nat)
    (hn1 : 1 ≤ n) (hnN : n ≤ N) (hk1 : 1 ≤ k) (hkn : k ≤ n) :
    (∀ c, c ∈ table_entry (build_configs N) n k ↔
      (List.Sorted (· ≥ ·) c ∧ (∀ x ∈ c, 1 ≤ x) ∧ c.length = k ∧ c.sum = n)) ∧
    (table_entry (build_configs N) n k).Nodup ∧
    ((List.range' 1 n).map (fun j => (table_entry (build_configs N) n j).length)).sum =
      Fintype.card (Nat.Partition n) := by
  have hent : ∀ j, 1 ≤ j → j ≤ n →
      table_entry (build_configs N) n j = configs_rec n j :=
    fun j _ h2 => table_entry_build_configs N n j (by omega) h2
  refine ⟨?_, ?_, ?_⟩
  · intro c
    rw [hent k hk1 hkn]
    exact configs_rec_mem n k hk1 hkn c
  · rw [hent k hk1 hkn]
    exact configs_rec_nodup n k hk1 hkn
  · have hmapeq : (List.range' 1 n).map (fun j => (table_entry (build_configs N) n j).length) =
        (List.range' 1 n).map (fun j => (configs_rec n j).length) := by
      refine List.map_congr_left ?_
      intro j hj
      rw [mem_range'_one] at hj
      rw [hent j hj.1 (by omega)]
    rw [hmapeq, ← all_configs_length n hn1]
    unfold all_configs
    rw [List.length_flatMap]
    refine congrArg List.sum ?_
    refine List.map_congr_left ?_
    intro j _
    rfl

/-- Witness for C2 at `N = 3`, `n = 2`, `k = 2`. -/
theorem build_configs_partitions_witness :
    ((1 : Nat) ≤ 2 ∧ (2 : Nat) ≤ 3) ∧
    ((∀ c, c ∈ table_entry (build_configs 3) 2 2 ↔
      (List.Sorted (· ≥ ·) c ∧ (∀ x ∈ c, 1 ≤ x) ∧ c.length = 2 ∧ c.sum = 2)) ∧
    (table_entry (build_configs 3) 2 2).Nodup ∧
    ((List.range' 1 2).map (fun j => (table_entry (build_configs 3) 2 j).length)).sum =
      Fintype.card (Nat.Partition 2)) :=
  ⟨⟨by decide, by decide⟩,
    build_configs_partitions 3 2 2 (by decide) (by decide) (by decide) (by decide)⟩

/-- The innermost `for lc in _losing_configs: ... else: append` loop body
of `_build_losing_configs` (ai.py, lines 290-295): keep `b` unchanged
when some known losing config is reachable from `c`, else append `c`. -/
def losing_insert (max_take : Int) (b : List (List Nat)) (c : List Nat) :
    List (List Nat) :=
  if b.any (fun lc => move_exists c lc max_take) then b else b ++ [c]

/-- One iteration of the `for n in range(start_from, up_to + 1)` loop of
`_build_losing_configs` (ai.py, lines 283-295): for odd `n` the all-ones
shortcut appends `[1] * n` directly; for even `n` every config of the
table row `n` is appended unless a known losing config is reachable from
it. -/
def losing_step (t : ConfigTable) (max_take : Int)
    (acc : List (List Nat)) (n : Nat) : List (List Nat) :=
  if n % 2 = 1 then acc ++ [List.replicate n 1]
  else
    (List.range' 1 n).foldl (fun a k =>
      (table_entry t n k).foldl (losing_insert max_take) a) acc

/-- Embedding of `_build_losing_configs(up_to, max_take, start_from)`
(ai.py, lines 273-295) as a transformer of the `_losing_configs` list,
given the `_configs` table `t`. -/
def build_losing_from (up_to : Nat) (max_take : Int) (start_from : Nat)
    (t : ConfigTable) (acc : List (List Nat)) : List (List Nat) :=
  (List.range' start_from (up_to + 1 - start_from)).foldl (losing_step t max_take) acc

/-- The `_losing_configs` list after `_build_configs(up_to)` followed by
`_build_losing_configs(up_to, max_take)` on a fresh module state. -/
def losing_configs (up_to : Nat) (max_take : Int) : List (List Nat) :=
  build_losing_from up_to max_take 1 (build_configs up_to) []

/-- Claim C4: in any `_build_losing_configs(up_to, max_take, start_from)`
call, each odd `n` in `[start_from, up_to]` contributes exactly one
n-stick configuration to the losing list, namely `[1] * n`, and it is
appended regardless of the accumulated list, i.e. without any
reachability check against the known losing configurations. -/
theorem build_losing_odd_shortcut (up_to : Nat) (K : Int) (start_from n : Nat)
    (t : ConfigTable) (acc : List (List Nat))
    (hodd : n % 2 = 1) (h1 : start_from ≤ n) (h2 : n ≤ up_to) :
    build_losing_from up_to K start_from t acc =
      build_losing_from up_to K (n + 1) t
        (build_losing_from (n - 1) K start_from t acc ++ [List.replicate n 1]) ∧
    (∀ acc' : List (List Nat), losing_step t K acc' n = acc' ++ [List.replicate n 1]) ∧
    (List.replicate n 1).sum = n := by
  have hstep : ∀ acc' : List (List Nat),
      losing_step t K acc' n = acc' ++ [List.replicate n 1] := by
    intro acc'
    unfold losing_step
    rw [if_pos hodd]
  refine ⟨?_, hstep, by simp⟩
  unfold build_losing_from
  have hsplit : List.range' start_from (up_to + 1 - start_from) =
      List.range' start_from (n - start_from) ++ List.range' n (up_to + 1 - n) := by
    have h := List.range'_append start_from (n - start_from) (up_to + 1 - n) 1
    have e1 : start_from + 1 * (n - start_from) = n := by omega
    have e2 : up_to + 1 - n + (n - start_from) = up_to + 1 - start_from := by omega
    rw [e1, e2] at h
    exact h.symm
  rw [hsplit, List.foldl_append]
  have hcnt : n - 1 + 1 - start_from = n - start_from := by omega
  rw [hcnt]
  have hsucc : List.range' n (up_to + 1 - n) = n :: List.range' (n + 1) (up_to - n) := by
    have e : up_to + 1 - n = (up_to - n) + 1 := by omega
    rw [e, List.range'_succ]
  rw [hsucc, List.foldl_cons, hstep]
  have e3 : up_to + 1 - (n + 1) = up_to - n := by omega
  rw [e3]

/-- Witness for C4 at `up_to = 3`, `K = 3`, `start_from = 1`, `n = 3`. -/
theorem build_losing_odd_shortcut_witness :
    ((3 : Nat) % 2 = 1 ∧ (1 : Nat) ≤ 3 ∧ (3 : Nat) ≤ 3) ∧
    (build_losing_from 3 3 1 (build_configs 3) [] =
      build_losing_from 3 3 4 (build_configs 3)
        (build_losing_from 2 3 1 (build_configs 3) [] ++ [List.replicate 3 1]) ∧
    (∀ acc' : List (List Nat),
      losing_step (build_configs 3) 3 acc' 3 = acc' ++ [List.replicate 3 1]) ∧
    (List.replicate 3 1).sum = 3) :=
  ⟨⟨by decide, by decide, by decide⟩,
    build_losing_odd_shortcut 3 3 1 3 (build_configs 3) [] (by decide) (by decide)
      (by decide)⟩

theorem foldl_flatMap {α β γ : Type} (f : γ → β → γ) (ks : List α)
    (g : α → List β) :
    ∀ acc, ((ks.flatMap g).foldl f acc) =
      ks.foldl (fun a k => (g k).foldl f a) acc := by
  induction ks with
  | nil => intro acc; rfl
  | cons k ks ih =>
    intro acc
    rw [List.flatMap_cons, List.foldl_append, List.foldl_cons, ih]

/-- All configurations stored in row `n` of the table built by
`_build_configs(N)`, concatenated over the group counts scanned by
`_build_losing_configs`. -/
def row_configs (t : ConfigTable) (n : Nat) : List (List Nat) :=
  (List.range' 1 n).flatMap (table_entry t n)

theorem losing_step_even_eq (t : ConfigTable) (K : Int)
    (acc : List (List Nat)) (n : Nat) (hne : ¬ n % 2 = 1) :
    losing_step t K acc n = (row_configs t n).foldl (losing_insert K) acc := by
  unfold losing_step row_configs
  rw [if_neg hne, foldl_flatMap]

theorem foldl_insert_mem_or (K : Int) (E : List (List Nat)) :
    ∀ (b : List (List Nat)) (x : List Nat),
      x ∈ E.foldl (losing_insert K) b → x ∈ b ∨ x ∈ E := by
  induction E with
  | nil =>
    intro b x hx
    exact Or.inl hx
  | cons c E ih =>
    intro b x hx
    rw [List.foldl_cons] at hx
    rcases ih _ x hx with hb | hE
    · unfold losing_insert at hb
      by_cases hd : (b.any (fun lc => move_exists c lc K)) = true
      · rw [if_pos hd] at hb
        exact Or.inl hb
      · rw [if_neg hd] at hb
        rw [List.mem_append] at hb
        rcases hb with hb | hc
        · exact Or.inl hb
        · rw [List.mem_singleton] at hc
          exact Or.inr (by simp [hc])
    · exact Or.inr (by simp [hE])

theorem foldl_insert_mono (K : Int) (E : List (List Nat)) :
    ∀ (b : List (List Nat)) (x : List Nat),
      x ∈ b → x ∈ E.foldl (losing_insert K) b := by
  induction E with
  | nil =>
    intro b x hx
    exact hx
  | cons c E ih =>
    intro b x hx
    rw [List.foldl_cons]
    refine ih _ x ?_
    unfold losing_insert
    by_cases hd : (b.any (fun lc => move_exists c lc K)) = true
    · rw [if_pos hd]
      exact hx
    · rw [if_neg hd]
      exact List.mem_append_left _ hx

theorem any_move_stable (K : Int) (C : List Nat) (base b : List (List Nat))
    (hsub : ∀ x ∈ b, x ∈ base ∨ x.sum = C.sum)
    (hin : ∀ x ∈ base, x ∈ b) :
    b.any (fun lc => move_exists C lc K) =
      base.any (fun lc => move_exists C lc K) := by
  by_cases hb : b.any (fun lc => move_exists C lc K) = true
  · rw [hb]
    rw [List.any_eq_true] at hb
    obtain ⟨x, hx, hq⟩ := hb
    rcases hsub x hx with hxb | hxs
    · exact (List.any_eq_true.mpr ⟨x, hxb, hq⟩).symm
    · exact absurd hq (by rw [move_exists_same_sum C x K hxs]; exact Bool.false_ne_true)
  · rw [Bool.not_eq_true] at hb
    rw [hb]
    by_cases hbase : base.any (fun lc => move_exists C lc K) = true
    · rw [List.any_eq_true] at hbase
      obtain ⟨x, hx, hq⟩ := hbase
      have : b.any (fun lc => move_exists C lc K) = true :=
        List.any_eq_true.mpr ⟨x, hin x hx, hq⟩
      rw [this] at hb
      cases hb
    · rw [Bool.not_eq_true] at hbase
      rw [hbase]

theorem foldl_insert_mem_iff (K : Int) (C : List Nat) (base : List (List Nat)) :
    ∀ (E b : List (List Nat)),
      (∀ x ∈ E, x.sum = C.sum) →
      (∀ x ∈ b, x ∈ base ∨ x.sum = C.sum) →
      (∀ x ∈ base, x ∈ b) →
      (C ∈ E.foldl (losing_insert K) b ↔
        (C ∈ b ∨ (C ∈ E ∧
          base.any (fun lc => move_exists C lc K) = false))) := by
  intro E
  induction E with
  | nil =>
    intro b _ _ _
    simp
  | cons c E ih =>
    intro b hE hsub hin
    rw [List.foldl_cons]
    have hc : c.sum = C.sum := hE c (by simp)
    have hE' : ∀ x ∈ E, x.sum = C.sum := fun x hx => hE x (by simp [hx])
    have hsub' : ∀ x ∈ losing_insert K b c, x ∈ base ∨ x.sum = C.sum := by
      intro x hx
      unfold losing_insert at hx
      by_cases hd : (b.any (fun lc => move_exists c lc K)) = true
      · rw [if_pos hd] at hx
        exact hsub x hx
      · rw [if_neg hd] at hx
        rw [List.mem_append] at hx
        rcases hx with hx | hx
        · exact hsub x hx
        · rw [List.mem_singleton] at hx
          subst hx
          exact Or.inr hc
    have hin' : ∀ x ∈ base, x ∈ losing_insert K b c := by
      intro x hx
      unfold losing_insert
      by_cases hd : (b.any (fun lc => move_exists c lc K)) = true
      · rw [if_pos hd]
        exact hin x hx
      · rw [if_neg hd]
        exact List.mem_append_left _ (hin x hx)
    rw [ih (losing_insert K b c) hE' hsub' hin']
    have hstable := any_move_stable K C base b hsub hin
    by_cases hcC : c = C
    · subst hcC
      by_cases hB : base.any (fun lc => move_exists c lc K) = true
      · have hbB : b.any (fun lc => move_exists c lc K) = true := by
          rw [hstable, hB]
        unfold losing_insert
        rw [if_pos hbB, hB]
        simp
      · rw [Bool.not_eq_true] at hB
        have hbB : b.any (fun lc => move_exists c lc K) = false := by
          rw [hstable, hB]
        unfold losing_insert
        rw [hbB]
        simp [hB]
    · have hmemiff : C ∈ losing_insert K b c ↔ C ∈ b := by
        unfold losing_insert
        by_cases hd : (b.any (fun lc => move_exists c lc K)) = true
        · rw [if_pos hd]
        · rw [if_neg hd]
          rw [List.mem_append, List.mem_singleton]
          constructor
          · intro h
            rcases h with h | h
            · exact h
            · exact absurd h.symm hcC
          · exact Or.inl
      rw [hmemiff]
      constructor
      · intro h
        rcases h with h | ⟨h1, h2⟩
        · exact Or.inl h
        · exact Or.inr ⟨by simp [h1], h2⟩
      · intro h
        rcases h with h | ⟨h1, h2⟩
        · exact Or.inl h
        · rw [List.mem_cons] at h1
          rcases h1 with h1 | h1
          · exact absurd h1.symm hcC
          · exact Or.inr ⟨h1, h2⟩

theorem losing_step_mem_or (t : ConfigTable) (K : Int)
    (acc : List (List Nat)) (n : Nat)
    (hrow : ∀ x ∈ row_configs t n, x.sum = n) :
    ∀ x ∈ losing_step t K acc n, x ∈ acc ∨ x.sum = n := by
  intro x hx
  by_cases ho : n % 2 = 1
  · unfold losing_step at hx
    rw [if_pos ho, List.mem_append] at hx
    rcases hx with hx | hx
    · exact Or.inl hx
    · rw [List.mem_singleton] at hx
      subst hx
      exact Or.inr (by simp)
  · rw [losing_step_even_eq t K acc n ho] at hx
    rcases foldl_insert_mem_or K _ _ x hx with h | h
    · exact Or.inl h
    · exact Or.inr (hrow x h)

theorem losing_step_mono (t : ConfigTable) (K : Int)
    (acc : List (List Nat)) (n : Nat) :
    ∀ x ∈ acc, x ∈ losing_step t K acc n := by
  intro x hx
  by_cases ho : n % 2 = 1
  · unfold losing_step
    rw [if_pos ho]
    exact List.mem_append_left _ hx
  · rw [losing_step_even_eq t K acc n ho]
    exact foldl_insert_mono K _ _ x hx

theorem row_configs_sum (N n : Nat) (hn : n ≤ N) :
    ∀ x ∈ row_configs (build_configs N) n, x.sum = n := by
  intro x hx
  unfold row_configs at hx
  rw [List.mem_flatMap] at hx
  obtain ⟨k, hk, hx⟩ := hx
  rw [mem_range'_one] at hk
  rw [table_entry_build_configs N n k hn (by omega)] at hx
  exact ((configs_rec_mem n k hk.1 (by omega) x).mp hx).2.2.2

theorem build_losing_succ (m : Nat) (K : Int) (t : ConfigTable)
    (acc : List (List Nat)) :
    build_losing_from (m + 1) K 1 t acc =
      losing_step t K (build_losing_from m K 1 t acc) (m + 1) := by
  unfold build_losing_from
  have e1 : m + 1 + 1 - 1 = m + 1 := by omega
  have e2 : m + 1 - 1 = m := by omega
  rw [e1, e2, List.range'_concat, List.foldl_append]
  have e3 : 1 + 1 * m = m + 1 := by omega
  rw [e3]
  rfl

theorem build_losing_sums (N : Nat) (K : Int) :
    ∀ m, m ≤ N →
      ∀ x ∈ build_losing_from m K 1 (build_configs N) [], 1 ≤ x.sum ∧ x.sum ≤ m := by
  intro m
  induction m with
  | zero =>
    intro _ x hx
    cases hx
  | succ m ih =>
    intro hm x hx
    rw [build_losing_succ] at hx
    rcases losing_step_mem_or _ _ _ _ (row_configs_sum N (m + 1) hm) x hx with h | h
    · have := ih (by omega) x h
      omega
    · omega

theorem build_losing_mono (N : Nat) (K : Int) (m m' : Nat) (h : m ≤ m') :
    ∀ x ∈ build_losing_from m K 1 (build_configs N) [],
      x ∈ build_losing_from m' K 1 (build_configs N) [] := by
  induction m' with
  | zero =>
    have hm : m = 0 := by omega
    subst hm
    exact fun x hx => hx
  | succ m' ih =>
    by_cases hc : m = m' + 1
    · subst hc
      exact fun x hx => hx
    · intro x hx
      rw [build_losing_succ]
      exact losing_step_mono _ _ _ _ x (ih (by omega) x hx)

theorem build_losing_late (N : Nat) (K : Int) (m m' : Nat)
    (h : m ≤ m') (hN : m' ≤ N) :
    ∀ x ∈ build_losing_from m' K 1 (build_configs N) [],
      x ∈ build_losing_from m K 1 (build_configs N) [] ∨ m < x.sum := by
  induction m' with
  | zero =>
    have hm : m = 0 := by omega
    subst hm
    exact fun x hx => Or.inl hx
  | succ m' ih =>
    by_cases hc : m = m' + 1
    · subst hc
      exact fun x hx => Or.inl hx
    · intro x hx
      rw [build_losing_succ] at hx
      rcases losing_step_mem_or _ _ _ _ (row_configs_sum N (m' + 1) hN) x hx with hxe | hxs
      · exact ih (by omega) (by omega) x hxe
      · right
        omega

/-- Counterexample to claim C1 at `board_size = 3`, `max_take = 1`,
`C = [3]`: after `_build_losing_configs(3, 1)` the list is
`[[1], [1, 1, 1]]`; no move with take 1 leads from `[3]` to a listed
configuration of smaller total, yet `[3]` is not in the list (the odd-`n`
shortcut skipped it). -/
theorem losing_configs_invariant_counterexample :
    ¬ (([3] ∈ losing_configs 3 1) ↔
      (∀ L ∈ losing_configs 3 1, L.sum < ([3] : List Nat).sum →
        move_exists [3] L 1 = false)) := by decide

/-- Claim C1 (amended): the losing-list membership test of
`_build_losing_configs(N, K)` characterises membership only for
configurations of even total: for every descending configuration `C` of
positive groups with even `sum C` and `sum C <= N`, `C` is in the list
iff no move with take in `[1, K]` leads from `C` to a configuration of
strictly smaller total already in the list.  For odd totals the shortcut
appends only the all-ones configuration, and the equivalence can fail
(see the counterexample). -/
theorem losing_configs_even_invariant (N : Nat) (K : Int) (C : List Nat)
    (hs : List.Sorted (· ≥ ·) C) (hp : ∀ x ∈ C, 1 ≤ x) (hne : C ≠ [])
    (heven : C.sum % 2 = 0) (hsumN : C.sum ≤ N) :
    (C ∈ losing_configs N K ↔
      ∀ L ∈ losing_configs N K, L.sum < C.sum → move_exists C L K = false) := by
  have hn1 : 1 ≤ C.sum := by
    cases C with
    | nil => cases hne rfl
    | cons a t =>
      have := hp a (by simp)
      simp only [List.sum_cons]
      omega
  obtain ⟨m, hm⟩ : ∃ m, C.sum = m + 1 := ⟨C.sum - 1, by omega⟩
  have hmN : m + 1 ≤ N := by omega
  have hlen1 : 1 ≤ C.length := by
    cases C with
    | nil => cases hne rfl
    | cons a t => simp
  have hlenn : C.length ≤ m + 1 := by
    have := mul_length_le_sum C 1 hp
    omega
  unfold losing_configs
  have hCE : C ∈ row_configs (build_configs N) (m + 1) := by
    unfold row_configs
    rw [List.mem_flatMap]
    refine ⟨C.length, ?_, ?_⟩
    · rw [mem_range'_one]
      omega
    · rw [table_entry_build_configs N (m + 1) C.length hmN hlenn]
      exact (configs_rec_mem (m + 1) C.length hlen1 hlenn C).mpr ⟨hs, hp, rfl, hm⟩
  have hCnotm : C ∉ build_losing_from m K 1 (build_configs N) [] := by
    intro hmem
    have := build_losing_sums N K m (by omega) C hmem
    omega
  have hstep : C ∈ build_losing_from (m + 1) K 1 (build_configs N) [] ↔
      (build_losing_from m K 1 (build_configs N) []).any
        (fun lc => move_exists C lc K) = false := by
    rw [build_losing_succ, losing_step_even_eq _ _ _ _ (by omega)]
    rw [foldl_insert_mem_iff K C (build_losing_from m K 1 (build_configs N) [])
      (row_configs (build_configs N) (m + 1))
      (build_losing_from m K 1 (build_configs N) [])
      (fun x hx => by rw [row_configs_sum N (m + 1) hmN x hx, hm])
      (fun x hx => Or.inl hx) (fun x hx => hx)]
    constructor
    · intro h
      rcases h with h | h
      · exact absurd h hCnotm
      · exact h.2
    · intro h
      exact Or.inr ⟨hCE, h⟩
  have hfinal : C ∈ build_losing_from N K 1 (build_configs N) [] ↔
      C ∈ build_losing_from (m + 1) K 1 (build_configs N) [] := by
    constructor
    · intro h
      rcases build_losing_late N K (m + 1) N hmN (Nat.le_refl N) C h with h | h
      · exact h
      · omega
    · intro h
      exact build_losing_mono N K (m + 1) N hmN C h
  rw [hfinal, hstep, List.any_eq_false]
  constructor
  · intro h L hL hLs
    have hLm : L ∈ build_losing_from m K 1 (build_configs N) [] := by
      rcases build_losing_late N K m N (by omega) (Nat.le_refl N) L hL with h2 | h2
      · exact h2
      · omega
    have := h L hLm
    rw [Bool.not_eq_true] at this
    exact this
  · intro h L hL
    have hLN : L ∈ build_losing_from N K 1 (build_configs N) [] :=
      build_losing_mono N K m N (by omega) L hL
    have hLs : L.sum < C.sum := by
      have := build_losing_sums N K m (by omega) L hL
      omega
    rw [h L hLN hLs]
    exact Bool.false_ne_true

/-- Witness for the amended C1 at `N = 4`, `K = 3`, `C = [2]`. -/
theorem losing_configs_even_invariant_witness :
    (List.Sorted (· ≥ ·) [2] ∧ (∀ x ∈ ([2] : List Nat), 1 ≤ x) ∧
      ([2] : List Nat) ≠ [] ∧ ([2] : List Nat).sum % 2 = 0 ∧
      ([2] : List Nat).sum ≤ 4) ∧
    (([2] ∈ losing_configs 4 3) ↔
      ∀ L ∈ losing_configs 4 3, L.sum < ([2] : List Nat).sum →
        move_exists [2] L 3 = false) :=
  ⟨⟨by decide, by decide, by decide, by decide, by decide⟩,
    losing_configs_even_invariant 4 3 [2] (by decide) (by decide) (by decide)
      (by decide) (by decide)⟩

/-- The scanning loop of `_process` (ai.py, lines 89-98) over the extended
board (the original slots followed by one extra gap).  A board is a list
of booleans, `true` for a stick and `false` for a gap.  The arguments
carry the loop state: current index `i`, `group_start` and `group_size`. -/
def scan_groups : List Bool → Nat → Nat → Nat → List (Nat × Nat)
  | [], _, _, _ => []
  | slot :: rest, i, group_start, group_size =>
    if slot then
      scan_groups rest (i + 1) (if group_size = 0 then i else group_start)
        (group_size + 1)
    else
      if 0 < group_size then
        (group_start, group_size) :: scan_groups rest (i + 1) group_start 0
      else
        scan_groups rest (i + 1) group_start 0

/-- Embedding of `_to_groups` (ai.py, lines 115-125): the list of
`(group_start_index, group_size)` pairs of the board's maximal stick
runs, via `_process` on the board extended with one trailing gap. -/
def to_groups (slots : List Bool) : List (Nat × Nat) :=
  scan_groups (slots ++ [false]) 0 0 0

/-- Embedding of `_to_config` (ai.py, lines 103-112): group sizes sorted
in decreasing order. -/
def to_config (slots : List Bool) : List Nat :=
  List.insertionSort (· ≥ ·) ((to_groups slots).map Prod.snd)

/-- Embedding of `Move` (mechanics.py, lines 234-236): the constructor
sorts its two indices. -/
structure GMove where
  left : Nat
  right : Nat
deriving DecidableEq, Repr

def mk_move (a b : Nat) : GMove := ⟨min a b, max a b⟩

/-- Embedding of `_build_move` (ai.py, lines 128-148): find the first
group of the requested size and remove `take` sticks at `offset` from
its left edge; `none` when the take does not fit or no group matches. -/
def build_move (slots : List Bool) (take group_size offset : Nat) : Option GMove :=
  if group_size < take + offset then none
  else
    match (to_groups slots).find? (fun g => g.2 == group_size) with
    | some g => some (mk_move (g.1 + offset) (g.1 + offset + take))
    | none => none

/-- Embedding of `_to_board` (ai.py, lines 484-514) for an already
shuffled (or unshuffled) group list: lay the groups out separated by
single gaps and pad with trailing gaps.  Returns `none` where Python
raises: when `board_size` is smaller than the minimal size, and when the
configuration is empty (`slots.pop()` on an empty list). -/
def to_board (config : List Nat) (board_size : Nat) : Option (List Bool) :=
  if board_size < config.sum + config.length - 1 then none
  else
    let raw := config.flatMap (fun group => List.replicate group true ++ [false])
    if raw.isEmpty then none
    else some (raw.dropLast ++ List.replicate (board_size - raw.dropLast.length) false)

/-- Embedding of `_reachable_losing_configs` (ai.py, lines 298-304), with
the module globals `_losing_configs` and `_settings.max_take` passed
explicitly. -/
def reachable_losing_configs (losing : List (List Nat)) (max_take : Nat)
    (config : List Nat) : List (List Nat) :=
  losing.filter (fun c => move_exists config c (max_take : Int))

/-- Model of `random.choice(l)`: some valid element selected by the seed
`r`; `none` (an `IndexError`) on an empty sequence. -/
def rand_choice {α : Type} (l : List α) (r : Nat) : Option α :=
  l[r % l.length]?

/-- Model of `random.randint(lo, hi)`: some value in `[lo, hi]` selected
by the seed `r`; `none` (a `ValueError`) when the range is empty. -/
def rand_int (lo hi r : Nat) : Option Nat :=
  if hi < lo then none else some (lo + r % (hi + 1 - lo))

/-- The failure modes of `generate_move` (ai.py, lines 445-478): the
explicit settings-mismatch `ValueError`, the `Exception` of the
`targets is None` branch, and the exceptions Python's `random` helpers
or the unpacking of a `None` move description would raise. -/
inductive AiError
  | settings_mismatch
  | not_studied
  | empty_choice
  | empty_range
  | describe_failed
deriving DecidableEq, Repr

/-- Embedding of `generate_move` (ai.py, lines 445-478).  The module
state (`_settings`, `_losing_configs`) and the game state (settings and
board) are explicit, as are the seeds of the `random` calls.  The
accompanying comment string is irrelevant to the claims and omitted; the
returned move is `Option GMove` because `_build_move` may return `None`.
The `targets_opt` match mirrors the dead `targets is None` test of the
source. -/
def generate_move (mod_board_size mod_max_take : Nat) (losing : List (List Nat))
    (game_board_size game_max_take : Nat) (slots : List Bool)
    (r_target r_group r_take r_offset : Nat) (r_pick : Bool) :
    Except AiError (Option GMove) :=
  if game_board_size ≠ mod_board_size ∨ game_max_take ≠ mod_max_take then
    .error .settings_mismatch
  else
    let config := to_config slots
    let targets_opt : Option (List (List Nat)) :=
      some (reachable_losing_configs losing mod_max_take config)
    match targets_opt with
    | none => .error .not_studied
    | some targets =>
      if targets.isEmpty then
        match rand_choice config r_group with
        | none => .error .empty_choice
        | some group =>
          match rand_int 1 (min game_max_take group) r_take with
          | none => .error .empty_range
          | some take =>
            match rand_int 0 (group - take) r_offset with
            | none => .error .empty_range
            | some offset => .ok (build_move slots take group offset)
      else
        match rand_choice targets r_target with
        | none => .error .empty_choice
        | some target =>
          match describe_move_between config target r_pick with
          | none => .error .describe_failed
          | some (take, group, offset) => .ok (build_move slots take group offset)

/-- Claim C8: `generate_move` raises the settings-mismatch error exactly
when the game's board size or max take differs from the module settings
set by the last `set_rules` call; the check is performed before the
board or the random seeds are consulted (the equivalence holds for every
board and seed), and when the settings match the error is never
raised. -/
theorem generate_move_matched_ne (mbs mmt : Nat) (losing : List (List Nat))
    (gbs gmt : Nat) (slots : List Bool) (rt rg rk ro : Nat) (rp : Bool)
    (h : ¬(gbs ≠ mbs ∨ gmt ≠ mmt)) (e : AiError)
    (he : e = .settings_mismatch ∨ e = .not_studied) :
    generate_move mbs mmt losing gbs gmt slots rt rg rk ro rp ≠ .error e := by
  unfold generate_move
  rw [if_neg h]
  intro heq
  simp only [] at heq
  split at heq
  all_goals try split at heq
  all_goals try split at heq
  all_goals try split at heq
  all_goals rcases he with rfl | rfl <;> simp_all

theorem generate_move_settings_check (mbs mmt : Nat) (losing : List (List Nat))
    (gbs gmt : Nat) (slots : List Bool) (rt rg rk ro : Nat) (rp : Bool) :
    generate_move mbs mmt losing gbs gmt slots rt rg rk ro rp =
        .error .settings_mismatch ↔ (gbs ≠ mbs ∨ gmt ≠ mmt) := by
  by_cases h : gbs ≠ mbs ∨ gmt ≠ mmt
  · unfold generate_move
    rw [if_pos h]
    simp [h]
  · simp only [h, iff_false]
    exact generate_move_matched_ne mbs mmt losing gbs gmt slots rt rg rk ro rp h
      .settings_mismatch (Or.inl rfl)

/-- Claim C10: `_reachable_losing_configs` is a list comprehension and
always produces a list, never `None`; hence the `targets is None` branch
of `generate_move` (the "This board was not studied" exception) is
unreachable: no combination of module state, game state and random seeds
makes `generate_move` return that error. -/
theorem generate_move_not_studied_unreachable (mbs mmt : Nat)
    (losing : List (List Nat)) (gbs gmt : Nat) (slots : List Bool)
    (rt rg rk ro : Nat) (rp : Bool) :
    generate_move mbs mmt losing gbs gmt slots rt rg rk ro rp ≠
      .error .not_studied := by
  by_cases h : gbs ≠ mbs ∨ gmt ≠ mmt
  · unfold generate_move
    rw [if_pos h]
    simp
  · exact generate_move_matched_ne mbs mmt losing gbs gmt slots rt rg rk ro rp h
      .not_studied (Or.inr rfl)

theorem scan_groups_cons_true (rest : List Bool) (i gstart gsize : Nat) :
    scan_groups (true :: rest) i gstart gsize =
      scan_groups rest (i + 1) (if gsize = 0 then i else gstart) (gsize + 1) := rfl

theorem scan_groups_cons_false (rest : List Bool) (i gstart gsize : Nat) :
    scan_groups (false :: rest) i gstart gsize =
      if 0 < gsize then (gstart, gsize) :: scan_groups rest (i + 1) gstart 0
      else scan_groups rest (i + 1) gstart 0 := rfl

theorem scan_groups_replicate_false (m : Nat) :
    ∀ i gstart, scan_groups (List.replicate m false) i gstart 0 = [] := by
  induction m with
  | zero => intro i gstart; rfl
  | succ m ih =>
    intro i gstart
    rw [List.replicate_succ, scan_groups_cons_false, if_neg (by omega)]
    exact ih (i + 1) gstart

theorem scan_groups_run (g : Nat) :
    ∀ (rest : List Bool) (i gstart gsize : Nat), 1 ≤ gsize →
      scan_groups (List.replicate g true ++ rest) i gstart gsize =
        scan_groups rest (i + g) gstart (gsize + g) := by
  induction g with
  | zero =>
    intro rest i gstart gsize _
    rfl
  | succ g ih =>
    intro rest i gstart gsize hgs
    rw [List.replicate_succ, List.cons_append, scan_groups_cons_true,
      if_neg (by omega : ¬ gsize = 0)]
    rw [ih rest (i + 1) gstart (gsize + 1) (by omega)]
    have e1 : i + 1 + g = i + (g + 1) := by omega
    have e2 : gsize + 1 + g = gsize + (g + 1) := by omega
    rw [e1, e2]

theorem scan_groups_flat (conf : List Nat) (hpos : ∀ g ∈ conf, 1 ≤ g) :
    ∀ (pad i gstart : Nat),
      (scan_groups
        (conf.flatMap (fun g => List.replicate g true ++ [false]) ++
          List.replicate pad false) i gstart 0).map Prod.snd = conf := by
  induction conf with
  | nil =>
    intro pad i gstart
    rw [List.flatMap_nil, List.nil_append, scan_groups_replicate_false]
    rfl
  | cons g rest ih =>
    intro pad i gstart
    have hg : 1 ≤ g := hpos g (by simp)
    obtain ⟨g', rfl⟩ : ∃ g', g = g' + 1 := ⟨g - 1, by omega⟩
    rw [List.flatMap_cons]
    have hshape :
        (List.replicate (g' + 1) true ++ [false]) ++
            rest.flatMap (fun g => List.replicate g true ++ [false]) ++
            List.replicate pad false =
          List.replicate (g' + 1) true ++
            (false :: (rest.flatMap (fun g => List.replicate g true ++ [false]) ++
              List.replicate pad false)) := by
      simp
    rw [hshape, List.replicate_succ, List.cons_append, scan_groups_cons_true,
      if_pos rfl]
    rw [scan_groups_run g' _ (i + 1) i 1 (by omega)]
    rw [scan_groups_cons_false, if_pos (by omega : 0 < 0 + 1 + g'), List.map_cons]
    have e : i + 1 + g' + 1 = i + (g' + 1) + 1 := by omega
    rw [e, ih (fun x hx => hpos x (by simp [hx])) pad (i + (g' + 1) + 1) i]
    have e2 : 0 + 1 + g' = g' + 1 := by omega
    rw [e2]

theorem flatMap_groups_concat (conf : List Nat) (hne : conf ≠ []) :
    ∃ raw', conf.flatMap (fun g => List.replicate g true ++ [false]) =
      raw' ++ [false] := by
  induction conf with
  | nil => cases hne rfl
  | cons g rest ih =>
    rw [List.flatMap_cons]
    by_cases hr : rest = []
    · subst hr
      exact ⟨List.replicate g true, by simp⟩
    · obtain ⟨raw', hraw⟩ := ih hr
      exact ⟨(List.replicate g true ++ [false]) ++ raw', by rw [hraw]; simp⟩

/-- Counterexample to claim C7 at `C = []`: `_to_board([])` executes
`slots.pop()` on an empty list and raises `IndexError`, so the round trip
produces no board at all instead of reproducing `[]`. -/
theorem to_board_empty_counterexample :
    ¬ ∃ slots, to_board ([] : List Nat) 0 = some slots ∧
      to_config slots = ([] : List Nat) := by decide

/-- Claim C7 (amended): for every nonempty descending configuration `C`
of positive integers, every permutation `conf` of `C` (the optional
shuffle) and every `board_size` at least `sum(C) + len(C) - 1`
(unspecified board size being the minimum itself),
`_to_board(conf, board_size)` succeeds and `_to_config` of the resulting
board is exactly `C`.  For `C = []` the code raises instead (see the
counterexample). -/
theorem to_board_to_config_roundtrip (C conf : List Nat) (board_size : Nat)
    (hs : List.Sorted (· ≥ ·) C) (hp : ∀ x ∈ C, 1 ≤ x) (hne : C ≠ [])
    (hperm : conf.Perm C) (hsize : C.sum + C.length - 1 ≤ board_size) :
    ∃ slots, to_board conf board_size = some slots ∧ to_config slots = C := by
  have hpc : ∀ x ∈ conf, 1 ≤ x := fun x hx => hp x (hperm.mem_iff.mp hx)
  have hnec : conf ≠ [] := by
    intro h
    subst h
    exact hne (List.Perm.nil_eq hperm).symm
  have hsumc : conf.sum = C.sum := hperm.sum_eq
  have hlenc : conf.length = C.length := hperm.length_eq
  obtain ⟨raw', hraw⟩ := flatMap_groups_concat conf hnec
  unfold to_board
  rw [if_neg (by omega : ¬ board_size < conf.sum + conf.length - 1)]
  simp only [hraw]
  rw [if_neg (show ¬ ((raw' ++ [false]).isEmpty = true) by simp)]
  refine ⟨_, rfl, ?_⟩
  unfold to_config to_groups
  rw [List.dropLast_concat]
  have hext : (raw' ++ List.replicate (board_size - raw'.length) false) ++ [false] =
      (raw' ++ [false]) ++ List.replicate (board_size - raw'.length) false := by
    rw [List.append_assoc, List.append_assoc]
    refine congrArg (raw' ++ ·) ?_
    show List.replicate (board_size - raw'.length) false ++ [false] =
      false :: List.replicate (board_size - raw'.length) false
    rw [← List.replicate_succ', ← List.replicate_succ]
  rw [hext, ← hraw]
  rw [scan_groups_flat conf hpc (board_size - raw'.length) 0 0]
  have hsorted : List.Sorted (· ≥ ·) (List.insertionSort (· ≥ ·) conf) :=
    List.sorted_insertionSort (· ≥ ·) conf
  have hperm2 : (List.insertionSort (· ≥ ·) conf).Perm C :=
    (List.perm_insertionSort (· ≥ ·) conf).trans hperm
  exact List.eq_of_perm_of_sorted hperm2 hsorted hs

/-- Witness for the amended C7 at `C = [2, 1]`, `conf = [1, 2]`,
`board_size = 5`. -/
theorem to_board_to_config_roundtrip_witness :
    (List.Sorted (· ≥ ·) [2, 1] ∧ (∀ x ∈ ([2, 1] : List Nat), 1 ≤ x) ∧
      ([2, 1] : List Nat) ≠ [] ∧ ([1, 2] : List Nat).Perm [2, 1] ∧
      ([2, 1] : List Nat).sum + ([2, 1] : List Nat).length - 1 ≤ 5) ∧
    (∃ slots, to_board [1, 2] 5 = some slots ∧ to_config slots = [2, 1]) :=
  ⟨⟨by decide, by decide, by decide, by decide, by decide⟩,
    to_board_to_config_roundtrip [2, 1] [1, 2] 5 (by decide) (by decide) (by decide)
      (by decide) (by decide)⟩

theorem scan_groups_sound (l : List Bool) :
    ∀ (i gstart gsize : Nat) (full : List Bool),
      (∀ j, j < l.length → l.getD j false = full.getD (i + j) false) →
      i + l.length = full.length →
      (gsize = 0 ∨ (gstart + gsize = i ∧
        ∀ j, gstart ≤ j → j < i → full.getD j false = true)) →
      ∀ s n, (s, n) ∈ scan_groups l i gstart gsize →
        1 ≤ n ∧ s + n ≤ full.length ∧
        ∀ j, s ≤ j → j < s + n → full.getD j false = true := by
  induction l with
  | nil =>
    intro i gstart gsize full _ _ _ s n hmem
    cases hmem
  | cons b rest ih =>
    intro i gstart gsize full hfull hlen hcarry s n hmem
    have hfull' : ∀ j, j < rest.length →
        rest.getD j false = full.getD (i + 1 + j) false := by
      intro j hj
      have := hfull (j + 1) (by simpa using Nat.succ_lt_succ hj)
      rw [List.getD_cons_succ] at this
      rw [this]
      refine congrArg (fun m => full.getD m false) ?_
      omega
    have hlen' : i + 1 + rest.length = full.length := by
      simp at hlen
      omega
    have hb : b = full.getD i false := by
      have := hfull 0 (by simp)
      simpa using this
    cases b with
    | true =>
      rw [scan_groups_cons_true] at hmem
      refine ih (i + 1) _ (gsize + 1) full hfull' hlen' ?_ s n hmem
      right
      by_cases hgs : gsize = 0
      · subst hgs
        rw [if_pos rfl]
        refine ⟨by omega, ?_⟩
        intro j hj1 hj2
        have : j = i := by omega
        subst this
        exact hb.symm
      · rw [if_neg hgs]
        rcases hcarry with h | ⟨h1, h2⟩
        · exact absurd h hgs
        · refine ⟨by omega, ?_⟩
          intro j hj1 hj2
          by_cases hji : j < i
          · exact h2 j hj1 hji
          · have : j = i := by omega
            subst this
            exact hb.symm
    | false =>
      rw [scan_groups_cons_false] at hmem
      by_cases hgs : 0 < gsize
      · rw [if_pos hgs] at hmem
        rcases List.mem_cons.mp hmem with hm | hm
        · rcases hcarry with h | ⟨h1, h2⟩
          · omega
          · have hs : s = gstart := (Prod.mk.injEq ..).mp hm |>.1
            have hn : n = gsize := (Prod.mk.injEq ..).mp hm |>.2
            subst hs
            subst hn
            refine ⟨by omega, by simp at hlen; omega, ?_⟩
            intro j hj1 hj2
            exact h2 j hj1 (by omega)
        · exact ih (i + 1) gstart 0 full hfull' hlen' (Or.inl rfl) s n hm
      · rw [if_neg hgs] at hmem
        exact ih (i + 1) gstart 0 full hfull' hlen' (Or.inl rfl) s n hmem

theorem to_groups_sound (slots : List Bool) (s n : Nat)
    (hmem : (s, n) ∈ to_groups slots) :
    1 ≤ n ∧ s + n ≤ slots.length ∧
      ∀ j, s ≤ j → j < s + n → slots.getD j false = true := by
  have hext := scan_groups_sound (slots ++ [false]) 0 0 0 (slots ++ [false])
    (fun j hj => by rw [Nat.zero_add]) (by omega) (Or.inl rfl) s n hmem
  obtain ⟨h1, h2, h3⟩ := hext
  have hlt : s + n ≤ slots.length := by
    by_contra hcon
    have hsn : s + n = slots.length + 1 := by
      simp at h2
      omega
    have := h3 slots.length (by omega) (by omega)
    rw [getD_concat_length] at this
    cases this
  refine ⟨h1, hlt, ?_⟩
  intro j hj1 hj2
  have := h3 j hj1 hj2
  rwa [getD_append_left _ _ _ _ (by omega)] at this

theorem mem_le_sum (l : List Nat) (x : Nat) (hx : x ∈ l) : x ≤ l.sum := by
  induction l with
  | nil => cases hx
  | cons a t ih =>
    rw [List.sum_cons]
    rcases List.mem_cons.mp hx with h | h
    · omega
    · have := ih h
      omega

theorem sum_erase_add (l : List Nat) (a : Nat) (h : a ∈ l) :
    (l.erase a).sum + a = l.sum := by
  have hp := (List.perm_cons_erase h).sum_eq
  rw [List.sum_cons] at hp
  omega

theorem rand_choice_mem {α : Type} (l : List α) (r : Nat) (x : α)
    (h : rand_choice l r = some x) : x ∈ l := by
  unfold rand_choice at h
  exact List.getElem?_mem h

theorem rand_int_bounds (lo hi r v : Nat) (h : rand_int lo hi r = some v) :
    lo ≤ v ∧ v ≤ hi := by
  unfold rand_int at h
  by_cases hc : hi < lo
  · rw [if_pos hc] at h
    cases h
  · rw [if_neg hc] at h
    have hv : v = lo + r % (hi + 1 - lo) := (Option.some.injEq ..).mp h |>.symm
    have hm : r % (hi + 1 - lo) < hi + 1 - lo := Nat.mod_lt _ (by omega)
    omega

theorem remove_groups_subset (T : List Nat) :
    ∀ F, remove_groups F T ⊆ F := by
  induction T with
  | nil => intro F x hx; exact hx
  | cons g T ih =>
    intro F
    unfold remove_groups
    rw [List.foldl_cons]
    intro x hx
    have hsub := ih (if g ∈ F then F.erase g else F)
    unfold remove_groups at hsub
    have := hsub hx
    by_cases hg : g ∈ F
    · rw [if_pos hg] at this
      exact List.erase_subset _ _ this
    · rwa [if_neg hg] at this

theorem remove_common_fst (F T : List Nat) :
    (remove_common F T).1 = remove_groups F T := by
  unfold remove_common remove_groups
  have hgen : ∀ (G : List Nat) (cf ct : List Nat),
      (G.foldl (fun p g => if g ∈ p.1 then (p.1.erase g, p.2.erase g) else p)
        (cf, ct)).1 =
      G.foldl (fun acc g => if g ∈ acc then acc.erase g else acc) cf := by
    intro G
    induction G with
    | nil => intro cf ct; rfl
    | cons g G ih =>
      intro cf ct
      rw [List.foldl_cons, List.foldl_cons]
      by_cases hg : g ∈ cf
      · rw [if_pos hg, if_pos hg]
        exact ih _ _
      · rw [if_neg hg, if_neg hg]
        exact ih _ _
  exact hgen T F T

theorem remove_common_sum (F T : List Nat) :
    (remove_common F T).1.sum + T.sum = (remove_common F T).2.sum + F.sum := by
  unfold remove_common
  have hgen : ∀ (G : List Nat) (cf ct : List Nat),
      (∀ g, G.count g ≤ ct.count g) →
      (G.foldl (fun p g => if g ∈ p.1 then (p.1.erase g, p.2.erase g) else p)
        (cf, ct)).1.sum + ct.sum =
      (G.foldl (fun p g => if g ∈ p.1 then (p.1.erase g, p.2.erase g) else p)
        (cf, ct)).2.sum + cf.sum := by
    intro G
    induction G with
    | nil =>
      intro cf ct _
      simp only [List.foldl_nil]
      omega
    | cons g G ih =>
      intro cf ct hcount
      rw [List.foldl_cons]
      have hgct : g ∈ ct := by
        have := hcount g
        rw [List.count_cons_self] at this
        exact List.count_pos_iff.mp (by omega)
      by_cases hg : g ∈ cf
      · have hcount' : ∀ h, G.count h ≤ (ct.erase g).count h := by
          intro h
          by_cases hhg : h = g
          · subst hhg
            have := hcount h
            rw [List.count_cons_self] at this
            rw [List.count_erase_self]
            omega
          · rw [List.count_erase_of_ne hhg]
            have := hcount h
            rw [List.count_cons_of_ne (by intro hc; exact hhg hc)] at this
            omega
        have hg' : g ∈ (cf, ct).1 := hg
        rw [if_pos hg']
        show (List.foldl (fun p g => if g ∈ p.1 then (p.1.erase g, p.2.erase g) else p)
            (cf.erase g, ct.erase g) G).1.sum + ct.sum =
          (List.foldl (fun p g => if g ∈ p.1 then (p.1.erase g, p.2.erase g) else p)
            (cf.erase g, ct.erase g) G).2.sum + cf.sum
        have := ih (cf.erase g) (ct.erase g) hcount'
        have hect := sum_erase_add ct g hgct
        have hecf := sum_erase_add cf g hg
        omega
      · have hcount' : ∀ h, G.count h ≤ ct.count h := by
          intro h
          have := hcount h
          by_cases hhg : h = g
          · subst hhg
            rw [List.count_cons_self] at this
            omega
          · rw [List.count_cons_of_ne (by intro hc; exact hhg hc)] at this
            omega
        have hg' : g ∉ (cf, ct).1 := hg
        rw [if_neg hg']
        exact ih cf ct hcount'
  exact hgen T F T (fun g => Nat.le_refl _)

theorem mk_move_of_le (a b : Nat) (h : a ≤ b) : mk_move a b = ⟨a, b⟩ := by
  unfold mk_move
  rw [Nat.min_eq_left h, Nat.max_eq_right h]

theorem build_move_some (slots : List Bool) (take group offset : Nat)
    (hgrp : group ∈ (to_groups slots).map Prod.snd)
    (hfit : take + offset ≤ group) :
    ∃ mv, build_move slots take group offset = some mv ∧
      mv.right - mv.left = take ∧ mv.right ≤ slots.length ∧
      ∀ j, mv.left ≤ j → j < mv.right → slots.getD j false = true := by
  unfold build_move
  rw [if_neg (by omega : ¬ group < take + offset)]
  have hfind : ((to_groups slots).find? (fun g => g.2 == group)).isSome := by
    rw [List.find?_isSome]
    rw [List.mem_map] at hgrp
    obtain ⟨p, hp, hpg⟩ := hgrp
    exact ⟨p, hp, by rw [beq_iff_eq]; exact hpg⟩
  obtain ⟨p, hp⟩ := Option.isSome_iff_exists.mp hfind
  rw [hp]
  have hpmem : p ∈ to_groups slots := List.mem_of_find?_eq_some hp
  have hpsize : p.2 = group := by
    have := List.find?_some hp
    rwa [beq_iff_eq] at this
  obtain ⟨hn1, hbound, hsticks⟩ := to_groups_sound slots p.1 p.2 (by
    rcases p with ⟨a, b⟩
    exact hpmem)
  have hmk : mk_move (p.1 + offset) (p.1 + offset + take) =
      GMove.mk (p.1 + offset) (p.1 + offset + take) :=
    mk_move_of_le _ _ (by omega)
  refine ⟨GMove.mk (p.1 + offset) (p.1 + offset + take), ?_, ?_, ?_, ?_⟩
  · show some (mk_move (p.1 + offset) (p.1 + offset + take)) = _
    rw [hmk]
  · show p.1 + offset + take - (p.1 + offset) = take
    omega
  · show p.1 + offset + take ≤ slots.length
    omega
  · intro j hj1 hj2
    have hj1' : p.1 + offset ≤ j := hj1
    have hj2' : j < p.1 + offset + take := hj2
    exact hsticks j (by omega) (by omega)

theorem describe_move_spec (F T : List Nat) (pick : Bool) (K : Int)
    (hmove : move_exists F T K = true) :
    ∃ take group offset,
      describe_move_between F T pick = some (take, group, offset) ∧
      1 ≤ take ∧ ((take : Int) = (F.sum : Int) - (T.sum : Int)) ∧
      group ∈ F ∧ take + offset ≤ group := by
  have hm := (move_exists_true_iff F T K).mp hmove
  have hmove' : move_exists F T ((F.sum : Int) - (T.sum : Int)) = true := by
    rw [move_exists_true_iff]
    exact ⟨hm.1, hm.2.1, le_refl _, hm.2.2.2⟩
  have hfst : (remove_common F T).1 = remove_groups F T := remove_common_fst F T
  have hlen1 : (remove_common F T).1.length = 1 := by
    rw [hfst]
    exact hm.2.2.2
  obtain ⟨x, hx⟩ := List.length_eq_one.mp hlen1
  have hxF : x ∈ F := by
    refine remove_groups_subset T F ?_
    rw [← hfst, hx]
    simp
  have hsums : T.sum + 1 ≤ F.sum := by
    have := hm.2.1
    omega
  have hsum2 : x + T.sum = (remove_common F T).2.sum + F.sum := by
    have := remove_common_sum F T
    rw [hx] at this
    simp at this
    omega
  have hdesc : describe_move_between F T pick =
      some (F.sum - T.sum, x,
        match (remove_common F T).2 with
        | [] => 0
        | [_] => 0
        | a :: b :: _ => if pick then a else b) := by
    unfold describe_move_between
    rw [if_pos hmove']
    simp only [hx, List.headD_cons]
  refine ⟨F.sum - T.sum, x, _, hdesc, by omega, by omega, hxF, ?_⟩
  rcases hT : (remove_common F T).2 with _ | ⟨a, _ | ⟨b, rest⟩⟩
  · rw [hT] at hsum2
    simp only [hT]
    simp at hsum2
    omega
  · rw [hT] at hsum2
    simp only [hT]
    omega
  · rw [hT] at hsum2
    simp only [hT]
    have ha : a ≤ (a :: b :: rest).sum := mem_le_sum _ a (by simp)
    have hb : b ≤ (a :: b :: rest).sum := mem_le_sum _ b (by simp)
    cases pick
    · show F.sum - T.sum + b ≤ x
      omega
    · show F.sum - T.sum + a ≤ x
      omega

/-- Claim C5: for a game whose board holds at least one stick and whose
settings match the module settings, every successfully returned move of
`generate_move` is legal: it is a real move (not `None`), removes between
1 and `max_take` sticks, stays within the board bounds, and every slot in
its half-open range `[left, right)` holds a stick.  Random choices are
modelled by the seed parameters; results quantify over all of them. -/
theorem generate_move_legal (bs mt : Nat) (losing : List (List Nat))
    (slots : List Bool) (rt rg rk ro : Nat) (rp : Bool)
    (hstick : true ∈ slots) :
    ∀ res, generate_move bs mt losing bs mt slots rt rg rk ro rp = .ok res →
      ∃ mv, res = some mv ∧ 1 ≤ mv.right - mv.left ∧ mv.right - mv.left ≤ mt ∧
        mv.right ≤ slots.length ∧
        ∀ j, mv.left ≤ j → j < mv.right → slots.getD j false = true := by
  intro res heq
  unfold generate_move at heq
  rw [if_neg (by simp)] at heq
  simp only [] at heq
  by_cases hemp :
      (reachable_losing_configs losing mt (to_config slots)).isEmpty = true
  · rw [if_pos hemp] at heq
    rcases hch : rand_choice (to_config slots) rg with _ | group
    · rw [hch] at heq
      cases heq
    · rw [hch] at heq
      simp only [] at heq
      rcases htk : rand_int 1 (min mt group) rk with _ | take
      · rw [htk] at heq
        cases heq
      · rw [htk] at heq
        simp only [] at heq
        rcases hof : rand_int 0 (group - take) ro with _ | offset
        · rw [hof] at heq
          cases heq
        · rw [hof] at heq
          simp only [] at heq
          have hres : res = build_move slots take group offset :=
            ((Except.ok.injEq ..).mp heq).symm
          have hgc : group ∈ to_config slots := rand_choice_mem _ _ _ hch
          have hgrp : group ∈ (to_groups slots).map Prod.snd := by
            unfold to_config at hgc
            rwa [List.mem_insertionSort] at hgc
          obtain ⟨ht1, ht2⟩ := rand_int_bounds _ _ _ _ htk
          obtain ⟨ho1, ho2⟩ := rand_int_bounds _ _ _ _ hof
          have hfit : take + offset ≤ group := by omega
          obtain ⟨mv, hbm, hlen, hbound, hsticks⟩ :=
            build_move_some slots take group offset hgrp hfit
          refine ⟨mv, by rw [hres, hbm], by omega, by omega, hbound, hsticks⟩
  · rw [if_neg hemp] at heq
    rcases hch : rand_choice (reachable_losing_configs losing mt (to_config slots))
        rt with _ | target
    · rw [hch] at heq
      cases heq
    · rw [hch] at heq
      simp only [] at heq
      have htmem : target ∈ reachable_losing_configs losing mt (to_config slots) :=
        rand_choice_mem _ _ _ hch
      have hmove : move_exists (to_config slots) target (mt : Int) = true := by
        unfold reachable_losing_configs at htmem
        exact (List.mem_filter.mp htmem).2
      obtain ⟨take, group, offset, hdesc, htake1, htakeInt, hgroupF, hfit⟩ :=
        describe_move_spec (to_config slots) target rp (mt : Int) hmove
      rw [hdesc] at heq
      simp only [] at heq
      have hres : res = build_move slots take group offset :=
        ((Except.ok.injEq ..).mp heq).symm
      have hgrp : group ∈ (to_groups slots).map Prod.snd := by
        have := hgroupF
        unfold to_config at this
        rwa [List.mem_insertionSort] at this
      have htakemt : take ≤ mt := by
        have := (move_exists_true_iff (to_config slots) target (mt : Int)).mp hmove
        omega
      obtain ⟨mv, hbm, hlen, hbound, hsticks⟩ :=
        build_move_some slots take group offset hgrp hfit
      refine ⟨mv, by rw [hres, hbm], by omega, by omega, hbound, hsticks⟩

/-- Witness for C5: a 3-stick board with `max_take = 3`, the losing list
for those rules, and concrete random seeds. -/
theorem generate_move_legal_witness :
    (true ∈ [true, true, true]) ∧
    (∃ mv, (some (GMove.mk 0 2) : Option GMove) = some mv ∧
      1 ≤ mv.right - mv.left ∧ mv.right - mv.left ≤ 3 ∧
      mv.right ≤ [true, true, true].length ∧
      ∀ j, mv.left ≤ j → j < mv.right →
        [true, true, true].getD j false = true) := by
  refine ⟨by decide, ?_⟩
  have h := generate_move_legal 3 3 (losing_configs 3 3) [true, true, true]
    0 0 0 0 true (by decide) (some (GMove.mk 0 2)) (by rfl)
  exact h

end StickyNim
